import Mathlib

set_option maxRecDepth 4000

/-!
Verification of the composition-and-export pipeline of a screen-recording
editor against its natural-language specification.

The development shallowly embeds the TypeScript source:

* `src/components/video-editor/clipUtils.ts` — the time-remapping module
  (`sortClips`, `outputTimeToSourceTime`, `sourceTimeToOutputTime`,
  `findClipAtSourceTime`, `getTotalClipDuration`, `generateClipFrameTimes`);
* `src/lib/exporter/frameRenderer.ts` — the exponential camera-smoothing
  update (`updateAnimationState`, scale component) and the mouse-tracking
  normalization (`normalizeTrackingData`);
* `src/lib/exporter/videoExporter.ts` (`VideoExporter`) — the export loop,
  its backpressure guard, cancellation and cleanup behaviour.

JavaScript numbers are modelled as exact rationals (`ℚ`); JS `null` /
`undefined` returns are modelled with `Option`.  Loops become structural
or well-founded recursion; the asynchronous encode queue becomes a labelled
transition system.
-/

/- ## Time-remapping module (clipUtils.ts) -/

/-- Modelled from the spec: the `ClipRegion` record `{ id, startMs, endMs }`
(spec §3); the record declaration itself is not among the provided sources,
but every field is fixed by its uses in `clipUtils.ts`. -/
structure ClipRegion where
  id : String
  startMs : ℚ
  endMs : ℚ
deriving DecidableEq, Repr

instance : IsTotal ClipRegion (fun a b => a.startMs ≤ b.startMs) :=
  ⟨fun _ _ => le_total _ _⟩

instance : IsTrans ClipRegion (fun a b => a.startMs ≤ b.startMs) :=
  ⟨fun _ _ _ => le_trans⟩

/-- `sortClips` (clipUtils.ts:12-14): copy of the list, stably sorted
ascending by `startMs` (the JS comparator `(a, b) => a.startMs - b.startMs`). -/
def sortClips (clips : List ClipRegion) : List ClipRegion :=
  List.insertionSort (fun a b => a.startMs ≤ b.startMs) clips

/-- `getTotalClipDuration` (clipUtils.ts:19-21): `reduce` with initial
accumulator `0`, adding `clip.endMs - clip.startMs`. -/
def getTotalClipDuration (clips : List ClipRegion) : ℚ :=
  clips.foldl (fun total clip => total + (clip.endMs - clip.startMs)) 0

/-- The `for` loop of `outputTimeToSourceTime` (clipUtils.ts:38-48), with the
mutable `accumulatedOutput` made an explicit parameter.  `none` is the
fall-through case (loop finished without returning). -/
def outputToSourceLoop (outputTimeMs accumulatedOutput : ℚ) :
    List ClipRegion → Option ℚ
  | [] => none
  | clip :: rest =>
    let clipDuration := clip.endMs - clip.startMs
    if outputTimeMs < accumulatedOutput + clipDuration then
      some (clip.startMs + (outputTimeMs - accumulatedOutput))
    else
      outputToSourceLoop outputTimeMs (accumulatedOutput + clipDuration) rest

/-- `outputTimeToSourceTime` (clipUtils.ts:32-53).  Empty clip list passes
`outputTimeMs` through; otherwise walk the sorted clips; past all clips,
return the end of the last clip (`lastClip ? lastClip.endMs : null`). -/
def outputTimeToSourceTime (outputTimeMs : ℚ) (clips : List ClipRegion) :
    Option ℚ :=
  if clips.isEmpty then some outputTimeMs
  else
    match outputToSourceLoop outputTimeMs 0 (sortClips clips) with
    | some v => some v
    | none => ((sortClips clips).getLast?).map (fun c => c.endMs)

/-- The `for` loop of `sourceTimeToOutputTime` (clipUtils.ts:65-78):
closed-interval membership test, early `null` on a gap before the clip,
otherwise accumulate the clip's duration and continue. -/
def sourceToOutputLoop (sourceTimeMs accumulatedOutput : ℚ) :
    List ClipRegion → Option ℚ
  | [] => none
  | clip :: rest =>
    if clip.startMs ≤ sourceTimeMs ∧ sourceTimeMs ≤ clip.endMs then
      some (accumulatedOutput + (sourceTimeMs - clip.startMs))
    else if sourceTimeMs < clip.startMs then none
    else
      sourceToOutputLoop sourceTimeMs
        (accumulatedOutput + (clip.endMs - clip.startMs)) rest

/-- `sourceTimeToOutputTime` (clipUtils.ts:59-82): empty clip list passes
through; otherwise the walk over the sorted clips, `null` when
`sourceTimeMs` lies in a gap or after all clips. -/
def sourceTimeToOutputTime (sourceTimeMs : ℚ) (clips : List ClipRegion) :
    Option ℚ :=
  if clips.isEmpty then some sourceTimeMs
  else sourceToOutputLoop sourceTimeMs 0 (sortClips clips)

/-- `findClipAtSourceTime` (clipUtils.ts:88-90): `clips.find(...)` on the
list as given (not sorted), with closed-interval membership. -/
def findClipAtSourceTime (sourceTimeMs : ℚ) (clips : List ClipRegion) :
    Option ClipRegion :=
  clips.find? (fun clip =>
    decide (clip.startMs ≤ sourceTimeMs ∧ sourceTimeMs ≤ clip.endMs))

def demoClipA : ClipRegion := ⟨"a", 0, 3000⟩

def demoClipB : ClipRegion := ⟨"b", 5000, 8000⟩

/- ### C10: outputTimeToSourceTime never returns null -/

/-- C10: despite its declared `number | null` return type,
`outputTimeToSourceTime` returns a number for every output time and every
clip list: the empty-list branch passes the input through, and the
fall-through branch of a non-empty list always has a last clip. -/
theorem c10_never_null (outputTimeMs : ℚ) (clips : List ClipRegion) :
    (outputTimeToSourceTime outputTimeMs clips).isSome = true := by
  unfold outputTimeToSourceTime
  by_cases h : clips.isEmpty
  · simp [h]
  · simp only [h, Bool.false_eq_true, if_false]
    cases hfind : outputToSourceLoop outputTimeMs 0 (sortClips clips) with
    | some v => rfl
    | none =>
      cases hlast : (sortClips clips).getLast? with
      | some c => simp [hlast]
      | none =>
        exfalso
        have hnil : sortClips clips = [] := List.getLast?_eq_none_iff.mp hlast
        have hperm := List.perm_insertionSort
          (fun a b : ClipRegion => a.startMs ≤ b.startMs) clips
        have hclips : clips = [] := by
          have hlen := hperm.length_eq
          rw [show List.insertionSort (fun a b : ClipRegion =>
            a.startMs ≤ b.startMs) clips = [] from hnil] at hlen
          exact List.length_eq_zero.mp hlen.symm
        rw [hclips] at h
        exact h rfl

/- ### C1: clip remap round trip -/

unseal Rat.add Rat.mul Rat.inv Rat.sub in
/-- C1 counterexample: with the gap-separated clips `[0,3000]`, `[5000,8000]`
and `srcMs = 3000` — which lies inside the first clip under the code's
closed-interval membership — the round trip returns `5000`, not `3000`.
The claim's quantification over `startMs ≤ srcMs ≤ endMs` is therefore
false. -/
theorem c1_roundtrip_counterexample :
    List.Pairwise (fun a b => a.endMs ≤ b.startMs ∨ b.endMs ≤ a.startMs)
      [demoClipA, demoClipB] ∧
    ([demoClipA, demoClipB].all fun c => decide (c.startMs < c.endMs)) = true ∧
    demoClipA.startMs ≤ 3000 ∧ (3000 : ℚ) ≤ demoClipA.endMs ∧
    sourceTimeToOutputTime 3000 [demoClipA, demoClipB] = some 3000 ∧
    outputTimeToSourceTime 3000 [demoClipA, demoClipB] = some 5000 ∧
    some (5000 : ℚ) ≠ some (3000 : ℚ) := by
  refine ⟨?_, by decide, by decide, by decide, by decide, by decide, by decide⟩
  decide

/-- In a duration-valid chain (each clip ends no later than the next starts),
the head's end bounds the start of every later clip. -/
lemma chain_head_le_start (x : ClipRegion) (L : List ClipRegion)
    (hchain : (x :: L).Chain' (fun a b => a.endMs ≤ b.startMs))
    (hvalid : ∀ c ∈ L, c.startMs < c.endMs) :
    ∀ c ∈ L, x.endMs ≤ c.startMs := by
  induction L generalizing x with
  | nil => intro c hc; cases hc
  | cons y rest ih =>
    intro c hc
    have hxy : x.endMs ≤ y.startMs := (List.chain'_cons.mp hchain).1
    rcases List.mem_cons.mp hc with hc | hc
    · rw [hc]; exact hxy
    · have hy : y.startMs < y.endMs := hvalid y (List.mem_cons_self _ _)
      have hrec := ih y (List.chain'_cons.mp hchain).2
        (fun z hz => hvalid z (List.mem_cons_of_mem _ hz)) c hc
      exact le_trans hxy (le_trans hy.le hrec)

/-- A list sorted by `startMs` whose members are pairwise non-overlapping
closed intervals with positive duration is a chain: each clip ends no later
than the next one starts. -/
lemma chain_of_sorted_sep (L : List ClipRegion)
    (hsort : L.Pairwise (fun a b => a.startMs ≤ b.startMs))
    (hsep : L.Pairwise (fun a b => a.endMs ≤ b.startMs ∨ b.endMs ≤ a.startMs))
    (hvalid : ∀ c ∈ L, c.startMs < c.endMs) :
    L.Chain' (fun a b => a.endMs ≤ b.startMs) := by
  refine List.Pairwise.chain' ?_
  refine List.Pairwise.imp_of_mem ?_ (hsort.and hsep)
  intro a b ha hb hab
  rcases hab.2 with h | h
  · exact h
  · exact absurd (lt_of_lt_of_le (hvalid b hb)
      (le_trans h hab.1)) (lt_irrefl _)

/-- Round trip of the two remapping walks over a chain of duration-valid
clips: a source time at or after the start and strictly before the end of
some clip maps to an output offset that maps back to the same source time. -/
lemma roundtrip_loop (srcMs : ℚ) (L : List ClipRegion) :
    ∀ (acc : ℚ),
      L.Chain' (fun a b => a.endMs ≤ b.startMs) →
      (∀ c ∈ L, c.startMs < c.endMs) →
      ∀ c ∈ L, c.startMs ≤ srcMs → srcMs < c.endMs →
      ∃ outMs, sourceToOutputLoop srcMs acc L = some outMs ∧ acc ≤ outMs ∧
        outputToSourceLoop outMs acc L = some srcMs := by
  induction L with
  | nil => intro acc _ _ c hc; cases hc
  | cons c0 rest ih =>
    intro acc hchain hvalid c hc h1 h2
    by_cases hm : c0.startMs ≤ srcMs ∧ srcMs ≤ c0.endMs
    · by_cases hlt : srcMs < c0.endMs
      · refine ⟨acc + (srcMs - c0.startMs), ?_, by linarith [hm.1], ?_⟩
        · simp [sourceToOutputLoop, hm]
        · have hcond : acc + (srcMs - c0.startMs) <
              acc + (c0.endMs - c0.startMs) := by linarith
          simp only [outputToSourceLoop, if_pos hcond]
          congr 1
          ring
      · -- srcMs = c0.endMs; the witness clip must be the head of `rest`
        have hsrc : srcMs = c0.endMs := le_antisymm hm.2 (not_lt.mp hlt)
        have hcne : c ≠ c0 := by
          intro hceq
          rw [hceq] at h2
          exact hlt h2
        have hcrest : c ∈ rest := by
          rcases List.mem_cons.mp hc with hcx | hcx
          · exact absurd hcx hcne
          · exact hcx
        have hhead := chain_head_le_start c0 rest hchain
          (fun x hx => hvalid x (List.mem_cons_of_mem _ hx))
        have hcs : c.startMs = srcMs :=
          le_antisymm h1 (hsrc ▸ hhead c hcrest)
        cases rest with
        | nil => cases hcrest
        | cons c1 rest2 =>
          have hc1 : c = c1 := by
            rcases List.mem_cons.mp hcrest with hcr | hcr
            · exact hcr
            · exfalso
              have hchain1 : (c1 :: rest2).Chain'
                  (fun a b => a.endMs ≤ b.startMs) :=
                (List.chain'_cons.mp hchain).2
              have hhead1 := chain_head_le_start c1 rest2 hchain1
                (fun x hx => hvalid x
                  (List.mem_cons_of_mem _ (List.mem_cons_of_mem _ hx)))
              have h01 : c0.endMs ≤ c1.startMs :=
                (List.chain'_cons.mp hchain).1
              have hv1 : c1.startMs < c1.endMs :=
                hvalid c1 (List.mem_cons_of_mem _ (List.mem_cons_self _ _))
              have hce : c1.endMs ≤ c.startMs := hhead1 c hcr
              rw [hcs, hsrc] at hce
              linarith
          refine ⟨acc + (srcMs - c0.startMs), ?_, by linarith [hm.1], ?_⟩
          · simp [sourceToOutputLoop, hm]
          · have hnotlt : ¬ (acc + (srcMs - c0.startMs) <
                acc + (c0.endMs - c0.startMs)) := by
              rw [hsrc]
              exact lt_irrefl _
            simp only [outputToSourceLoop, if_neg hnotlt]
            have hv1 : c1.startMs < c1.endMs :=
              hvalid c1 (List.mem_cons_of_mem _ (List.mem_cons_self _ _))
            have hs1 : c1.startMs = srcMs := by rw [← hc1, hcs]
            have hcond : acc + (srcMs - c0.startMs) <
                acc + (c0.endMs - c0.startMs) + (c1.endMs - c1.startMs) := by
              rw [hsrc] at hs1 ⊢
              linarith
            simp only [outputToSourceLoop, if_pos hcond]
            congr 1
            rw [hs1, hsrc]
            ring
    · by_cases hless : srcMs < c0.startMs
      · exfalso
        rcases List.mem_cons.mp hc with hcx | hcx
        · rw [hcx] at h1; linarith
        · have hhead := chain_head_le_start c0 rest hchain
            (fun x hx => hvalid x (List.mem_cons_of_mem _ hx))
          have hv0 : c0.startMs < c0.endMs :=
            hvalid c0 (List.mem_cons_self _ _)
          have := hhead c hcx
          linarith
      · have hgt : c0.endMs < srcMs := by
          rcases not_and_or.mp hm with h | h
          · exact absurd (not_lt.mp hless) h
          · exact not_le.mp h
        have hcne : c ≠ c0 := by
          intro hceq
          rw [hceq] at h2
          linarith
        have hcrest : c ∈ rest := by
          rcases List.mem_cons.mp hc with hcx | hcx
          · exact absurd hcx hcne
          · exact hcx
        obtain ⟨outMs, hS, hle, hO⟩ := ih (acc + (c0.endMs - c0.startMs))
          hchain.tail
          (fun x hx => hvalid x (List.mem_cons_of_mem _ hx))
          c hcrest h1 h2
        refine ⟨outMs, ?_, ?_, ?_⟩
        · simp only [sourceToOutputLoop, if_neg hm, if_neg hless]
          exact hS
        · have hv0 : c0.startMs < c0.endMs :=
            hvalid c0 (List.mem_cons_self _ _)
          linarith
        · have hnotlt : ¬ (outMs < acc + (c0.endMs - c0.startMs)) :=
            not_lt.mpr hle
          simp only [outputToSourceLoop, if_neg hnotlt]
          exact hO

/-- C1 amended: for duration-valid, pairwise non-overlapping clips and any
source time with `clip.startMs ≤ srcMs < clip.endMs` (strictly before the
clip's end), the two remapping functions compose to the identity.  (At the
shared boundary `srcMs = clip.endMs` of a clip followed by a gap the round
trip instead lands on the next clip's start, see the counterexample.) -/
theorem c1_roundtrip_amended (clips : List ClipRegion)
    (hvalid : ∀ c ∈ clips, c.startMs < c.endMs)
    (hsep : clips.Pairwise
      (fun a b => a.endMs ≤ b.startMs ∨ b.endMs ≤ a.startMs))
    (c : ClipRegion) (hc : c ∈ clips) (srcMs : ℚ)
    (h1 : c.startMs ≤ srcMs) (h2 : srcMs < c.endMs) :
    ∃ outMs, sourceTimeToOutputTime srcMs clips = some outMs ∧
      outputTimeToSourceTime outMs clips = some srcMs := by
  have hne : clips ≠ [] := by
    intro hnil
    rw [hnil] at hc
    cases hc
  have hempty : clips.isEmpty = false := by
    cases clips with
    | nil => exact absurd rfl hne
    | cons x xs => rfl
  have hperm : List.Perm (sortClips clips) clips := List.perm_insertionSort
    (fun a b : ClipRegion => a.startMs ≤ b.startMs) clips
  have hsort : (sortClips clips).Pairwise
      (fun a b => a.startMs ≤ b.startMs) := by
    unfold sortClips
    exact List.sorted_insertionSort (fun a b => a.startMs ≤ b.startMs) clips
  have hsepL : (sortClips clips).Pairwise
      (fun a b => a.endMs ≤ b.startMs ∨ b.endMs ≤ a.startMs) :=
    (hperm.pairwise_iff (fun hab => hab.symm)).mpr hsep
  have hvalidL : ∀ x ∈ sortClips clips, x.startMs < x.endMs :=
    fun x hx => hvalid x (hperm.mem_iff.mp hx)
  have hchain := chain_of_sorted_sep (sortClips clips) hsort hsepL hvalidL
  have hcL : c ∈ sortClips clips := hperm.mem_iff.mpr hc
  obtain ⟨outMs, hS, _, hO⟩ :=
    roundtrip_loop srcMs (sortClips clips) 0 hchain hvalidL c hcL h1 h2
  refine ⟨outMs, ?_, ?_⟩
  · unfold sourceTimeToOutputTime
    rw [hempty]
    simp only [Bool.false_eq_true, if_false]
    exact hS
  · unfold outputTimeToSourceTime
    rw [hempty]
    simp only [Bool.false_eq_true, if_false, hO]

unseal Rat.add Rat.mul Rat.inv Rat.sub in
/-- C1 witness: the amended round trip at `srcMs = 1500` inside the first
of the two demo clips. -/
theorem c1_roundtrip_witness :
    ∃ outMs, sourceTimeToOutputTime 1500 [demoClipA, demoClipB] = some outMs ∧
      outputTimeToSourceTime outMs [demoClipA, demoClipB] = some 1500 :=
  c1_roundtrip_amended [demoClipA, demoClipB] (by decide) (by decide)
    demoClipA (by decide) 1500 (by decide) (by decide)

/- ### C6: outputTimeToSourceTime against its specified description -/

/-- The specification's own description of `outputTimeToSource`, formalised
independently of the code's loop: over the clips sorted by `startMs`, find
the first clip whose accumulated span (prefix sum of durations up to and
including it) strictly exceeds `outMs` and return its `startMs` plus the
remaining offset; when no accumulated span exceeds `outMs` (i.e. `outMs` is
at or beyond the total covered duration) return the last clip's `endMs`;
an empty clip list is the identity. -/
def outputTimeToSourceSpec (outputTimeMs : ℚ) (clips : List ClipRegion) :
    Option ℚ :=
  if clips.isEmpty then some outputTimeMs
  else
    match (List.range (sortClips clips).length).find?
        (fun k => decide (outputTimeMs <
          (((sortClips clips).map fun c => c.endMs - c.startMs).take
            (k + 1)).sum)) with
    | some k => ((sortClips clips).get? k).map
        (fun c => c.startMs +
          (outputTimeMs -
            (((sortClips clips).map fun c => c.endMs - c.startMs).take
              k).sum))
    | none => ((sortClips clips).getLast?).map (fun c => c.endMs)

/-- The accumulator walk of `outputTimeToSourceTime` agrees with the
first-index search over prefix sums of clip durations. -/
lemma outputLoop_eq_search (L : List ClipRegion) :
    ∀ (out acc : ℚ),
      outputToSourceLoop out acc L =
        ((List.range L.length).find? (fun k =>
            decide (out <
              acc + ((L.map fun c => c.endMs - c.startMs).take (k + 1)).sum))).bind
          (fun k => (L.get? k).map (fun c =>
            c.startMs +
              (out - acc -
                ((L.map fun c => c.endMs - c.startMs).take k).sum))) := by
  induction L with
  | nil =>
    intro out acc
    simp [outputToSourceLoop]
  | cons c0 rest ih =>
    intro out acc
    rw [show (c0 :: rest).length = rest.length + 1 from rfl,
      List.range_succ_eq_map]
    by_cases hout : out < acc + (c0.endMs - c0.startMs)
    · have hfind : List.find? (fun k => decide (out <
          acc + (((c0 :: rest).map fun c => c.endMs - c.startMs).take
            (k + 1)).sum)) (0 :: (List.range rest.length).map Nat.succ) =
          some 0 := by
        apply List.find?_cons_of_pos
        simp only [List.map_cons, List.take_succ_cons, List.take_zero,
          List.sum_cons, List.sum_nil, add_zero]
        exact decide_eq_true hout
      rw [hfind]
      simp only [outputToSourceLoop, if_pos hout, Option.some_bind,
        List.get?_cons_zero, Option.map_some', List.take_zero, List.sum_nil,
        sub_zero, Option.some.injEq]
    · have hfind : List.find? (fun k => decide (out <
          acc + (((c0 :: rest).map fun c => c.endMs - c.startMs).take
            (k + 1)).sum)) (0 :: (List.range rest.length).map Nat.succ) =
          List.find? (fun k => decide (out <
            acc + (((c0 :: rest).map fun c => c.endMs - c.startMs).take
              (k + 1)).sum)) ((List.range rest.length).map Nat.succ) := by
        apply List.find?_cons_of_neg
        simp only [List.map_cons, List.take_succ_cons, List.take_zero,
          List.sum_cons, List.sum_nil, add_zero, decide_eq_true_eq]
        exact hout
      rw [hfind, List.find?_map]
      have hpred : ((fun k => decide (out <
          acc + (((c0 :: rest).map fun c => c.endMs - c.startMs).take
            (k + 1)).sum)) ∘ Nat.succ) =
          (fun k => decide (out <
            acc + (c0.endMs - c0.startMs) +
              ((rest.map fun c => c.endMs - c.startMs).take (k + 1)).sum)) := by
        funext k
        simp only [Function.comp_apply, List.map_cons, List.take_succ_cons,
          List.sum_cons]
        refine decide_eq_decide.mpr ?_
        constructor <;> intro h <;> linarith
      rw [hpred]
      simp only [outputToSourceLoop, if_neg hout]
      rw [ih out (acc + (c0.endMs - c0.startMs))]
      cases hrec : (List.range rest.length).find? (fun k =>
          decide (out < acc + (c0.endMs - c0.startMs) +
            ((rest.map fun c => c.endMs - c.startMs).take (k + 1)).sum)) with
      | none => simp
      | some k =>
        simp only [Option.map_some', Option.some_bind, List.get?_cons_succ]
        cases hget : rest.get? k with
        | none => simp
        | some c =>
          simp only [Option.map_some', Option.some.injEq, List.map_cons,
            List.take_succ_cons, List.sum_cons]
          ring

/-- `reduce`-style total duration equals the sum of per-clip durations. -/
lemma getTotalClipDuration_eq_sum (clips : List ClipRegion) :
    getTotalClipDuration clips =
      (clips.map fun c => c.endMs - c.startMs).sum := by
  have aux : ∀ (l : List ClipRegion) (a : ℚ),
      l.foldl (fun total clip => total + (clip.endMs - clip.startMs)) a =
        a + (l.map fun c => c.endMs - c.startMs).sum := by
    intro l
    induction l with
    | nil => intro a; simp
    | cons x xs ih =>
      intro a
      simp only [List.foldl_cons, List.map_cons, List.sum_cons, ih]
      ring
  simpa [getTotalClipDuration] using aux clips 0

/-- C6: `outputTimeToSourceTime` matches the specification's description:
walk the sorted clips accumulating durations and return
`clip.startMs + (outMs - accumulated-before)` at the first clip whose
accumulated span strictly exceeds `outMs`; at or beyond the total covered
duration return the last sorted clip's `endMs`; an empty clip list is the
identity. -/
theorem c6_outputTimeToSource_spec (outputTimeMs : ℚ)
    (clips : List ClipRegion)
    (hvalid : ∀ c ∈ clips, c.startMs < c.endMs) :
    outputTimeToSourceTime outputTimeMs clips =
      outputTimeToSourceSpec outputTimeMs clips ∧
    (clips ≠ [] → getTotalClipDuration clips ≤ outputTimeMs →
      outputTimeToSourceTime outputTimeMs clips =
        ((sortClips clips).getLast?).map (fun c => c.endMs)) ∧
    (clips = [] →
      outputTimeToSourceTime outputTimeMs clips = some outputTimeMs) := by
  refine ⟨?_, ?_, ?_⟩
  · by_cases hemp : clips.isEmpty
    · unfold outputTimeToSourceTime outputTimeToSourceSpec
      rw [if_pos hemp, if_pos hemp]
    · unfold outputTimeToSourceTime outputTimeToSourceSpec
      rw [if_neg hemp, if_neg hemp]
      rw [outputLoop_eq_search (sortClips clips) outputTimeMs 0]
      have hpred : (fun k => decide (outputTimeMs <
          0 + (((sortClips clips).map fun c => c.endMs - c.startMs).take
            (k + 1)).sum)) =
          (fun k => decide (outputTimeMs <
            (((sortClips clips).map fun c => c.endMs - c.startMs).take
              (k + 1)).sum)) := by
        funext k
        refine decide_eq_decide.mpr ?_
        rw [zero_add]
      rw [hpred]
      cases hfind : (List.range (sortClips clips).length).find? (fun k =>
          decide (outputTimeMs <
            (((sortClips clips).map fun c => c.endMs - c.startMs).take
              (k + 1)).sum)) with
      | none => simp
      | some k =>
        have hk : k < (sortClips clips).length :=
          List.mem_range.mp (List.mem_of_find?_eq_some hfind)
        cases hget : (sortClips clips).get? k with
        | none =>
          exfalso
          rw [List.get?_eq_none] at hget
          omega
        | some c =>
          simp only [Option.some_bind, hget, Option.map_some',
            Option.some.injEq]
          ring
  · intro hne htot
    have hemp : clips.isEmpty = false := by
      cases clips with
      | nil => exact absurd rfl hne
      | cons x xs => rfl
    unfold outputTimeToSourceTime
    rw [hemp]
    simp only [Bool.false_eq_true, if_false]
    have hperm : List.Perm (sortClips clips) clips := List.perm_insertionSort
      (fun a b : ClipRegion => a.startMs ≤ b.startMs) clips
    have hsum : ((sortClips clips).map fun c => c.endMs - c.startMs).sum =
        getTotalClipDuration clips := by
      rw [getTotalClipDuration_eq_sum]
      exact (hperm.map (fun c => c.endMs - c.startMs)).sum_eq
    have hnonneg : ∀ q ∈ ((sortClips clips).map
        fun c => c.endMs - c.startMs), 0 ≤ q := by
      intro q hq
      rcases List.mem_map.mp hq with ⟨c, hc, hcq⟩
      have := hvalid c (hperm.mem_iff.mp hc)
      rw [← hcq]
      linarith
    have hloop : outputToSourceLoop outputTimeMs 0 (sortClips clips) =
        none := by
      rw [outputLoop_eq_search (sortClips clips) outputTimeMs 0]
      have hnone : (List.range (sortClips clips).length).find? (fun k =>
          decide (outputTimeMs <
            0 + (((sortClips clips).map fun c => c.endMs - c.startMs).take
              (k + 1)).sum)) = none := by
        rw [List.find?_eq_none]
        intro k _
        simp only [decide_eq_true_eq, zero_add, not_lt]
        calc (((sortClips clips).map fun c => c.endMs - c.startMs).take
              (k + 1)).sum
            ≤ ((sortClips clips).map fun c => c.endMs - c.startMs).sum := by
              rw [← List.sum_take_add_sum_drop
                ((sortClips clips).map fun c => c.endMs - c.startMs) (k + 1)]
              have : 0 ≤ (((sortClips clips).map
                  fun c => c.endMs - c.startMs).drop (k + 1)).sum :=
                List.sum_nonneg (fun q hq =>
                  hnonneg q (List.mem_of_mem_drop hq))
              linarith
          _ = getTotalClipDuration clips := hsum
          _ ≤ outputTimeMs := htot
      rw [hnone]
      rfl
    rw [hloop]
  · intro hnil
    rw [hnil]
    rfl

unseal Rat.add Rat.mul Rat.inv Rat.sub in
/-- C6 witness: at output time 4000 over the demo clips both descriptions
agree and give source time 6000 (the worked example in the source's own
doc comment). -/
theorem c6_outputTimeToSource_witness :
    outputTimeToSourceTime 4000 [demoClipA, demoClipB] =
      outputTimeToSourceSpec 4000 [demoClipA, demoClipB] ∧
    outputTimeToSourceTime 4000 [demoClipA, demoClipB] = some 6000 :=
  ⟨(c6_outputTimeToSource_spec 4000 [demoClipA, demoClipB] (by decide)).1,
   by decide⟩

/- ### C7: boundary membership and resolution order -/

def demoClipC : ClipRegion := ⟨"c", 0, 5000⟩

unseal Rat.add Rat.mul Rat.inv Rat.sub in
/-- C7 counterexample: on the unsorted input `[⟨5000,8000⟩, ⟨0,5000⟩]` whose
clips share the boundary `5000`, `findClipAtSourceTime` returns the clip
that comes first in the *input* order (`⟨5000,8000⟩`), not the first
matching clip in ascending-`startMs` order (`⟨0,5000⟩`, which matches and
sorts first).  The claim's "first matching clip in sorted order, for every
input clip list" is therefore false for `findClipAtSourceTime`. -/
theorem c7_boundary_counterexample :
    sortClips [demoClipB, demoClipC] = [demoClipC, demoClipB] ∧
    (demoClipC.startMs ≤ 5000 ∧ (5000 : ℚ) ≤ demoClipC.endMs) ∧
    findClipAtSourceTime 5000 [demoClipB, demoClipC] = some demoClipB ∧
    demoClipB ≠ demoClipC := by
  refine ⟨by decide, by decide, by decide, by decide⟩

/-- Walking clips that all fail the closed membership test and start at or
before the source time just accumulates their durations. -/
lemma sourceLoop_skip (srcMs : ℚ) (c : ClipRegion) (post : List ClipRegion) :
    ∀ (pre : List ClipRegion) (acc : ℚ),
      (∀ c' ∈ pre, ¬ (c'.startMs ≤ srcMs ∧ srcMs ≤ c'.endMs)) →
      (∀ c' ∈ pre, c'.startMs ≤ srcMs) →
      sourceToOutputLoop srcMs acc (pre ++ c :: post) =
        sourceToOutputLoop srcMs
          (acc + (pre.map fun x => x.endMs - x.startMs).sum) (c :: post) := by
  intro pre
  induction pre with
  | nil => intro acc _ _; simp
  | cons p pre' ih =>
    intro acc hmem hstart
    have hp : ¬ (p.startMs ≤ srcMs ∧ srcMs ≤ p.endMs) :=
      hmem p (List.mem_cons_self _ _)
    have hps : ¬ (srcMs < p.startMs) :=
      not_lt.mpr (hstart p (List.mem_cons_self _ _))
    rw [List.cons_append]
    rw [show sourceToOutputLoop srcMs acc (p :: (pre' ++ c :: post)) =
        if p.startMs ≤ srcMs ∧ srcMs ≤ p.endMs then
          some (acc + (srcMs - p.startMs))
        else if srcMs < p.startMs then none
        else sourceToOutputLoop srcMs (acc + (p.endMs - p.startMs))
          (pre' ++ c :: post) from rfl, if_neg hp, if_neg hps]
    rw [ih (acc + (p.endMs - p.startMs))
      (fun c' hc' => hmem c' (List.mem_cons_of_mem _ hc'))
      (fun c' hc' => hstart c' (List.mem_cons_of_mem _ hc'))]
    congr 1
    simp only [List.map_cons, List.sum_cons]
    ring

/-- C7 amended: clip membership is closed on both ends in both functions,
and boundary resolution is deterministic but differs between them:
`findClipAtSourceTime` returns the first matching clip in the *input*
list's order (so in sorted order only when the input is already sorted),
while `sourceTimeToOutputTime` always resolves to the first matching clip
of the list sorted ascending by `startMs`. -/
theorem c7_boundary_amended :
    (∀ (srcMs : ℚ) (clips : List ClipRegion) (c : ClipRegion),
      findClipAtSourceTime srcMs clips = some c →
        (c.startMs ≤ srcMs ∧ srcMs ≤ c.endMs) ∧
        ∃ l₁ l₂, clips = l₁ ++ c :: l₂ ∧
          ∀ c' ∈ l₁, ¬ (c'.startMs ≤ srcMs ∧ srcMs ≤ c'.endMs)) ∧
    (∀ (srcMs : ℚ) (clips : List ClipRegion) (pre : List ClipRegion)
        (c : ClipRegion) (post : List ClipRegion),
      sortClips clips = pre ++ c :: post →
      (∀ c' ∈ pre, ¬ (c'.startMs ≤ srcMs ∧ srcMs ≤ c'.endMs)) →
      c.startMs ≤ srcMs → srcMs ≤ c.endMs →
      sourceTimeToOutputTime srcMs clips =
        some ((pre.map fun x => x.endMs - x.startMs).sum +
          (srcMs - c.startMs))) := by
  constructor
  · intro srcMs clips c hfind
    unfold findClipAtSourceTime at hfind
    rw [List.find?_eq_some] at hfind
    obtain ⟨hp, l₁, l₂, hsplit, hfail⟩ := hfind
    refine ⟨of_decide_eq_true hp, l₁, l₂, hsplit, ?_⟩
    intro c' hc'
    have hb := hfail c' hc'
    rw [Bool.not_eq_true'] at hb
    exact of_decide_eq_false hb
  · intro srcMs clips pre c post hsortEq hfail h1 h2
    have hperm : List.Perm (sortClips clips) clips := List.perm_insertionSort
      (fun a b : ClipRegion => a.startMs ≤ b.startMs) clips
    have hne : clips ≠ [] := by
      intro hnil
      have hlen := hperm.length_eq
      rw [hsortEq] at hlen
      rw [hnil] at hlen
      simp at hlen
    have hemp : clips.isEmpty = false := by
      cases clips with
      | nil => exact absurd rfl hne
      | cons x xs => rfl
    have hsorted : (sortClips clips).Pairwise
        (fun a b => a.startMs ≤ b.startMs) := by
      unfold sortClips
      exact List.sorted_insertionSort (fun a b => a.startMs ≤ b.startMs) clips
    have hstart : ∀ c' ∈ pre, c'.startMs ≤ srcMs := by
      intro c' hc'
      have hrel : c'.startMs ≤ c.startMs := by
        rw [hsortEq] at hsorted
        have := (List.pairwise_append.mp hsorted).2.2 c' hc' c
          (List.mem_cons_self _ _)
        exact this
      linarith
    unfold sourceTimeToOutputTime
    rw [hemp]
    simp only [Bool.false_eq_true, if_false]
    rw [hsortEq, sourceLoop_skip srcMs c post pre 0 hfail hstart]
    simp only [sourceToOutputLoop, if_pos (And.intro h1 h2), zero_add]

unseal Rat.add Rat.mul Rat.inv Rat.sub in
/-- C7 witness: on the unsorted demo list, `findClipAtSourceTime 5000`
returns the head (with its closed-membership guarantee and empty failing
part), and `sourceTimeToOutputTime 5000` resolves to the first sorted
match `⟨0,5000⟩`, giving output `0 + (5000 - 0)`. -/
theorem c7_boundary_witness :
    ((demoClipB.startMs ≤ 5000 ∧ (5000 : ℚ) ≤ demoClipB.endMs) ∧
      ∃ l₁ l₂, [demoClipB, demoClipC] = l₁ ++ demoClipB :: l₂ ∧
        ∀ c' ∈ l₁, ¬ (c'.startMs ≤ (5000 : ℚ) ∧ (5000 : ℚ) ≤ c'.endMs)) ∧
    sourceTimeToOutputTime 5000 [demoClipB, demoClipC] =
      some ((([] : List ClipRegion).map fun x => x.endMs - x.startMs).sum +
        (5000 - demoClipC.startMs)) :=
  ⟨c7_boundary_amended.1 5000 [demoClipB, demoClipC] demoClipB (by decide),
   c7_boundary_amended.2 5000 [demoClipB, demoClipC] [] demoClipC
     [demoClipB] (by decide) (by simp) (by decide) (by decide)⟩

/- ### C2: frame schedule exactness -/

/-!
The JS runtime evaluates `generateClipFrameTimes` in IEEE-754 binary64
("double") arithmetic, and the accumulated drift of
`currentMs += frameIntervalMs` is observable in the schedule (the second
demo clip gains a 91st sample).  The loop is therefore embedded over
exact binary64 values: every double is an exact rational, and each JS
arithmetic operation is the exact rational operation followed by
`roundB64`, rounding to the nearest 53-bit significand with ties to even
(the normal range only — the magnitudes involved are nowhere near
subnormal or overflow territory).
-/

/-- Fuelled base-2 logarithm on ℕ (⌊log₂ n⌋ for `n ≥ 1` given fuel ≥
bit length; 128 covers every number in range here). -/
def natLog2F : ℕ → ℕ → ℕ
  | 0, _ => 0
  | fuel + 1, n => if n < 2 then 0 else natLog2F fuel (n / 2) + 1

def natLog2 (n : ℕ) : ℕ := natLog2F 128 n

/-- `2 ^ e` as a rational, for integer `e`. -/
def qpow2 (e : ℤ) : ℚ :=
  if 0 ≤ e then ((2 ^ e.toNat : ℕ) : ℚ) else 1 / ((2 ^ (-e).toNat : ℕ) : ℚ)

/-- `⌊log₂ q⌋` for a positive rational. -/
def ratLog2Floor (q : ℚ) : ℤ :=
  if q < qpow2 ((natLog2 q.num.toNat : ℤ) - (natLog2 q.den : ℤ)) then
    (natLog2 q.num.toNat : ℤ) - (natLog2 q.den : ℤ) - 1
  else (natLog2 q.num.toNat : ℤ) - (natLog2 q.den : ℤ)

/-- Round a non-negative rational to the nearest integer, ties to even. -/
def roundHalfEven (x : ℚ) : ℤ :=
  if x - (x.floor : ℚ) < 1 / 2 then x.floor
  else if 1 / 2 < x - (x.floor : ℚ) then x.floor + 1
  else if x.floor % 2 = 0 then x.floor else x.floor + 1

/-- Binary64 rounding: the exact value a JS `number` holds for `q`
(round to nearest, 53-bit significand, ties to even; normal range). -/
def roundB64 (q : ℚ) : ℚ :=
  if q = 0 then 0
  else
    (if q < 0 then -1 else 1) *
      (roundHalfEven ((if q < 0 then -q else q) *
        qpow2 (52 - ratLog2Floor (if q < 0 then -q else q))) : ℚ) *
      qpow2 (ratLog2Floor (if q < 0 then -q else q) - 52)

/-- Ceiling of a non-negative rational as a natural number (fuel bound). -/
def ceilNatPos (q : ℚ) : ℕ := (q.num.toNat + q.den - 1) / q.den

/-- The inner `while (currentMs < clip.endMs)` loop of
`generateClipFrameTimes` (clipUtils.ts:127-131) in binary64 arithmetic:
push the double `currentMs / 1000` (seconds) and advance by the double
addition `currentMs += frameIntervalMs`.  The fuel argument bounds the
iteration count; every terminating JS run (positive interval) is
reproduced exactly when the fuel exceeds the number of iterations. -/
def clipFrameLoop (endMs frameIntervalMs : ℚ) : ℕ → ℚ → List ℚ
  | 0, _ => []
  | fuel + 1, currentMs =>
    if currentMs < endMs then
      roundB64 (currentMs / 1000) ::
        clipFrameLoop endMs frameIntervalMs fuel
          (roundB64 (currentMs + frameIntervalMs))
    else []

/-- Fuel for one clip: the rational iteration-count ceiling plus slack
(the double accumulator advances by at least
`frameIntervalMs · (1 - 2⁻⁵²)` per step, so the true iteration count can
exceed the exact-arithmetic count by at most one here). -/
def clipLoopFuel (endMs startMs frameIntervalMs : ℚ) : ℕ :=
  ceilNatPos ((endMs - startMs) / frameIntervalMs) + 8

/-- `generateClipFrameTimes` (clipUtils.ts:119-135): empty clip list gives
no frames; otherwise, for each clip in sorted order, sample from its
`startMs` while strictly inside the clip.  The frame interval is the
double `1000 / frameRate`, computed once. -/
def generateClipFrameTimes (clips : List ClipRegion) (frameRate : ℚ) :
    List ℚ :=
  if clips.isEmpty then []
  else
    (sortClips clips).flatMap (fun clip =>
      clipFrameLoop clip.endMs (roundB64 (1000 / frameRate))
        (clipLoopFuel clip.endMs clip.startMs (roundB64 (1000 / frameRate)))
        clip.startMs)

unseal Rat.add Rat.mul Rat.inv Rat.sub in
/-- C2 counterexample: for clips `[0,3000]`, `[5000,8000]` at 30 fps the
binary64 accumulation leaves the second clip's `currentMs` at
`7999.999999999973 < 8000` after 90 additions of the double `1000/30`, so
the program emits a 91st sample for it — `181` samples in total, not
`180`; and sample index 89 sits at the accumulated double
`≈ 2966.666666666669 ms` (value `6680339447266241/2251799813685248`
seconds), not at `2970 ms`. -/
theorem c2_frameSchedule_counterexample :
    (generateClipFrameTimes [demoClipA, demoClipB] 30).length = 181 ∧
    ¬ (generateClipFrameTimes [demoClipA, demoClipB] 30).length = 180 ∧
    (generateClipFrameTimes [demoClipA, demoClipB] 30).get? 89 =
      some (6680339447266241 / 2251799813685248) ∧
    ¬ (1000 : ℚ) * (6680339447266241 / 2251799813685248) = 2970 := by
  refine ⟨by decide, by decide, by decide, by decide⟩

unseal Rat.add Rat.mul Rat.inv Rat.sub in
/-- C2 amended: for clips `[0,3000]`, `[5000,8000]` at 30 fps the schedule
has `90 + 91 = 181` samples (the 91st sample of the second clip exists
because the accumulated double stays just below `8000`); sample 89 is at
the accumulated double `≈ 2966.67 ms` (not 2970 ms), sample 90 is at
exactly `5000 ms` (`5` s), the extra final sample is at
`≈ 7999.99999999997 ms` inside the second clip, and every one of the
first clip's 90 samples lies strictly before its `endMs = 3000 ms`, so
no sample bleeds across the gap. -/
theorem c2_frameSchedule_amended :
    (generateClipFrameTimes [demoClipA, demoClipB] 30).length = 181 ∧
    (generateClipFrameTimes [demoClipA, demoClipB] 30).get? 89 =
      some (6680339447266241 / 2251799813685248) ∧
    (generateClipFrameTimes [demoClipA, demoClipB] 30).get? 90 = some 5 ∧
    (generateClipFrameTimes [demoClipA, demoClipB] 30).get? 180 =
      some (9007199254740961 / 1125899906842624) ∧
    ((generateClipFrameTimes [demoClipA, demoClipB] 30).take 90).all
      (fun t => decide (1000 * t < 3000)) = true := by
  refine ⟨by decide, by decide, by decide, by decide, by decide⟩

/- ## Camera animation engine (frameRenderer.ts, updateAnimationState) -/

/-- `ZoomDepth` (types.ts:1): the five discrete zoom levels. -/
inductive ZoomDepth where
  | d1
  | d2
  | d3
  | d4
  | d5
deriving DecidableEq, Repr

/-- `ZOOM_DEPTH_SCALES` (types.ts:30-36): 1→1.25, 2→1.5, 3→1.8, 4→2.2,
5→3.5. -/
def ZOOM_DEPTH_SCALES : ZoomDepth → ℚ
  | .d1 => 5 / 4
  | .d2 => 3 / 2
  | .d3 => 9 / 5
  | .d4 => 11 / 5
  | .d5 => 7 / 2

/-- `SMOOTHING_FACTOR` (videoPlayback/constants.ts): 0.18. -/
def SMOOTHING_FACTOR : ℚ := 18 / 100

/-- `MIN_DELTA` (videoPlayback/constants.ts): 0.0001. -/
def MIN_DELTA : ℚ := 1 / 10000

/-- JS `Math.abs`. -/
def mathAbs (q : ℚ) : ℚ := if q < 0 then -q else q

/-- One tick of the scale component of `updateAnimationState`
(frameRenderer.ts:421-433): move by `SMOOTHING_FACTOR` of the remaining
delta while its magnitude exceeds `MIN_DELTA`, otherwise snap exactly to
the target.  The scale update reads none of the focus fields, so this
projection is exact. -/
def smoothScaleStep (targetScaleFactor scale : ℚ) : ℚ :=
  if MIN_DELTA < mathAbs (targetScaleFactor - scale) then
    scale + (targetScaleFactor - scale) * SMOOTHING_FACTOR
  else targetScaleFactor

lemma mathAbs_eq_abs (q : ℚ) : mathAbs q = |q| := by
  unfold mathAbs
  rcases lt_or_le q 0 with h | h
  · rw [if_pos h, abs_of_neg h]
  · rw [if_neg (not_lt.mpr h), abs_of_nonneg h]

/-- While every remaining delta stays above `MIN_DELTA`, the iterated tick
follows the exact geometric law with ratio `1 - 0.18 = 41/50`. -/
lemma smooth_closed (t : ℚ) : ∀ (n : ℕ) (s : ℚ),
    (∀ k < n, MIN_DELTA < |(t - s) * (41 / 50) ^ k|) →
    (smoothScaleStep t)^[n] s = t - (t - s) * (41 / 50) ^ n := by
  intro n
  induction n with
  | zero =>
    intro s _
    simp only [Function.iterate_zero_apply, pow_zero, mul_one]
    ring
  | succ n ih =>
    intro s hcond
    have h0 : MIN_DELTA < |t - s| := by
      have := hcond 0 (Nat.succ_pos n)
      simpa using this
    have hstep : smoothScaleStep t s = s + (t - s) * SMOOTHING_FACTOR := by
      unfold smoothScaleStep
      rw [mathAbs_eq_abs, if_pos h0]
    have hkey : t - (s + (t - s) * SMOOTHING_FACTOR) =
        (t - s) * (41 / 50) := by
      unfold SMOOTHING_FACTOR
      ring
    rw [Function.iterate_succ_apply, hstep]
    rw [ih (s + (t - s) * SMOOTHING_FACTOR) ?_]
    · rw [show t - (s + (t - s) * SMOOTHING_FACTOR) = (t - s) * (41 / 50)
        from hkey]
      rw [show (t - s) * (41 / 50) * (41 / 50) ^ n =
        (t - s) * (41 / 50) ^ (n + 1) by rw [pow_succ]; ring]
    · intro k hk
      rw [show t - (s + (t - s) * SMOOTHING_FACTOR) = (t - s) * (41 / 50)
        from hkey]
      rw [show (t - s) * (41 / 50) * (41 / 50) ^ k =
        (t - s) * (41 / 50) ^ (k + 1) by rw [pow_succ]; ring]
      exact hcond (k + 1) (by omega)

/-- The target is a fixed point of the tick. -/
lemma smooth_fixed (t : ℚ) : smoothScaleStep t t = t := by
  unfold smoothScaleStep
  rw [sub_self, mathAbs_eq_abs, abs_zero]
  rw [if_neg (by unfold MIN_DELTA; norm_num)]

/-- Once the remaining delta is within `MIN_DELTA`, the tick snaps to the
target. -/
lemma smooth_snap (t s : ℚ) (h : mathAbs (t - s) ≤ MIN_DELTA) :
    smoothScaleStep t s = t := by
  unfold smoothScaleStep
  rw [if_neg (not_lt.mpr h)]

/-- If the delta from the initial scale 1 first dips to `MIN_DELTA` after
`n` geometric steps, every iterate from tick `n + 1` on equals the target
exactly. -/
lemma converge_after (t : ℚ) (n : ℕ)
    (hA : ∀ k < n, MIN_DELTA < |(t - 1) * (41 / 50) ^ k|)
    (hB : |(t - 1) * (41 / 50) ^ n| ≤ MIN_DELTA) :
    ∀ m, n + 1 ≤ m → (smoothScaleStep t)^[m] 1 = t := by
  have hn := smooth_closed t n 1 hA
  have hsnap : (smoothScaleStep t)^[n + 1] 1 = t := by
    rw [Function.iterate_succ_apply', hn]
    apply smooth_snap
    rw [mathAbs_eq_abs,
      show t - (t - (t - 1) * (41 / 50) ^ n) = (t - 1) * (41 / 50) ^ n
        by ring]
    exact hB
  intro m hm
  obtain ⟨j, rfl⟩ : ∃ j, m = j + (n + 1) := ⟨m - (n + 1), by omega⟩
  rw [Function.iterate_add_apply, hsnap]
  exact Function.iterate_fixed (smooth_fixed t) j

/-- Geometric deltas stay above `MIN_DELTA` up to a checked last index. -/
lemma geom_cond (δ : ℚ) (hδ : 0 < δ) (n : ℕ)
    (hlast : MIN_DELTA < δ * (41 / 50) ^ n) :
    ∀ k < n + 1, MIN_DELTA < |δ * (41 / 50) ^ k| := by
  intro k hk
  have hpow : (41 / 50 : ℚ) ^ n ≤ (41 / 50) ^ k :=
    pow_le_pow_of_le_one (by norm_num) (by norm_num) (by omega)
  rw [abs_of_pos (mul_pos hδ (pow_pos (by norm_num) k))]
  exact lt_of_lt_of_le hlast (mul_le_mul_of_nonneg_left hpow hδ.le)

/-- C4: the smoothing tick moves the persistent scale by exactly
`SMOOTHING_FACTOR` of the remaining delta while the delta's magnitude
exceeds `MIN_DELTA`, snaps exactly to the target once it is at or below
`MIN_DELTA`, and — for a single active region at strength 1, whose target
scale `1 + (zoomScale - 1) · 1` is exactly `ZOOM_DEPTH_SCALES depth` —
iterating from the seeded scale 1 reaches the target exactly within 60
ticks (two seconds at 30 fps) for every depth and stays there with no
oscillation. -/
theorem c4_smoothing_convergence :
    (∀ targetScaleFactor scale : ℚ,
      MIN_DELTA < mathAbs (targetScaleFactor - scale) →
      smoothScaleStep targetScaleFactor scale =
        scale + (targetScaleFactor - scale) * SMOOTHING_FACTOR) ∧
    (∀ targetScaleFactor scale : ℚ,
      mathAbs (targetScaleFactor - scale) ≤ MIN_DELTA →
      smoothScaleStep targetScaleFactor scale = targetScaleFactor) ∧
    (∀ d : ZoomDepth,
      1 + (ZOOM_DEPTH_SCALES d - 1) * 1 = ZOOM_DEPTH_SCALES d) ∧
    (∀ (d : ZoomDepth) (n : ℕ), 60 ≤ n →
      (smoothScaleStep (1 + (ZOOM_DEPTH_SCALES d - 1) * 1))^[n] 1 =
        ZOOM_DEPTH_SCALES d) := by
  refine ⟨?_, ?_, ?_, ?_⟩
  · intro t s h
    unfold smoothScaleStep
    rw [if_pos h]
  · intro t s h
    exact smooth_snap t s h
  · intro d
    ring
  · intro d n hn
    have htarget : 1 + (ZOOM_DEPTH_SCALES d - 1) * 1 = ZOOM_DEPTH_SCALES d :=
      by ring
    rw [htarget]
    cases d with
    | d1 =>
      refine converge_after (5 / 4) 40 ?_ ?_ n (by omega)
      · have hg := geom_cond (1 / 4) (by norm_num) 39
          (by unfold MIN_DELTA; norm_num)
        intro k hk
        have := hg k hk
        rw [show (5 / 4 : ℚ) - 1 = 1 / 4 by norm_num] at *
        simpa [ZOOM_DEPTH_SCALES] using this
      · rw [show (5 / 4 : ℚ) - 1 = 1 / 4 by norm_num]
        rw [abs_of_pos (by positivity)]
        unfold MIN_DELTA
        norm_num
    | d2 =>
      refine converge_after (3 / 2) 43 ?_ ?_ n (by omega)
      · have hg := geom_cond (1 / 2) (by norm_num) 42
          (by unfold MIN_DELTA; norm_num)
        intro k hk
        have := hg k hk
        simpa [ZOOM_DEPTH_SCALES, show (3 / 2 : ℚ) - 1 = 1 / 2 by norm_num]
          using this
      · rw [show (3 / 2 : ℚ) - 1 = 1 / 2 by norm_num]
        rw [abs_of_pos (by positivity)]
        unfold MIN_DELTA
        norm_num
    | d3 =>
      refine converge_after (9 / 5) 46 ?_ ?_ n (by omega)
      · have hg := geom_cond (4 / 5) (by norm_num) 45
          (by unfold MIN_DELTA; norm_num)
        intro k hk
        have := hg k hk
        simpa [ZOOM_DEPTH_SCALES, show (9 / 5 : ℚ) - 1 = 4 / 5 by norm_num]
          using this
      · rw [show (9 / 5 : ℚ) - 1 = 4 / 5 by norm_num]
        rw [abs_of_pos (by positivity)]
        unfold MIN_DELTA
        norm_num
    | d4 =>
      refine converge_after (11 / 5) 48 ?_ ?_ n (by omega)
      · have hg := geom_cond (6 / 5) (by norm_num) 47
          (by unfold MIN_DELTA; norm_num)
        intro k hk
        have := hg k hk
        simpa [ZOOM_DEPTH_SCALES, show (11 / 5 : ℚ) - 1 = 6 / 5 by norm_num]
          using this
      · rw [show (11 / 5 : ℚ) - 1 = 6 / 5 by norm_num]
        rw [abs_of_pos (by positivity)]
        unfold MIN_DELTA
        norm_num
    | d5 =>
      refine converge_after (7 / 2) 52 ?_ ?_ n (by omega)
      · have hg := geom_cond (5 / 2) (by norm_num) 51
          (by unfold MIN_DELTA; norm_num)
        intro k hk
        have := hg k hk
        simpa [ZOOM_DEPTH_SCALES, show (7 / 2 : ℚ) - 1 = 5 / 2 by norm_num]
          using this
      · rw [show (7 / 2 : ℚ) - 1 = 5 / 2 by norm_num]
        rw [abs_of_pos (by positivity)]
        unfold MIN_DELTA
        norm_num

/-- C4 witness: a smoothing move above the epsilon, a snap at the target,
and exact convergence at depth 3 after 60 ticks. -/
theorem c4_smoothing_witness :
    smoothScaleStep (9 / 5) 1 =
      1 + ((9 / 5 : ℚ) - 1) * SMOOTHING_FACTOR ∧
    smoothScaleStep (9 / 5) (9 / 5) = 9 / 5 ∧
    (smoothScaleStep (1 + (ZOOM_DEPTH_SCALES ZoomDepth.d3 - 1) * 1))^[60] 1 =
      ZOOM_DEPTH_SCALES ZoomDepth.d3 :=
  ⟨c4_smoothing_convergence.1 (9 / 5) 1
      (by unfold mathAbs MIN_DELTA; norm_num),
   c4_smoothing_convergence.2.1 (9 / 5) (9 / 5)
      (by unfold mathAbs MIN_DELTA; norm_num),
   c4_smoothing_convergence.2.2.2 ZoomDepth.d3 60 (by norm_num)⟩

/- ## Pointer overlay mapper (frameRenderer.ts, normalizeTrackingData) -/

/-- `MouseTrackingEvent.type` (types.ts:93). -/
inductive MouseEventType where
  | move
  | down
  | up
  | click
deriving DecidableEq, Repr

/-- `MouseTrackingEvent` (types.ts:92-99). -/
structure MouseTrackingEvent where
  type : MouseEventType
  timestamp : ℚ
  x : ℚ
  y : ℚ
  button : Option ℤ
  clicks : Option ℕ
deriving DecidableEq, Repr

/-- `SourceBounds` (types.ts:102-107). -/
structure SourceBounds where
  x : ℚ
  y : ℚ
  width : ℚ
  height : ℚ
deriving DecidableEq, Repr

/-- JS `Math.max` on two finite numbers. -/
def jsMax (a b : ℚ) : ℚ := if a < b then b else a

/-- JS `Math.min` on two finite numbers. -/
def jsMin (a b : ℚ) : ℚ := if b < a then b else a

/-- The running minimum of `event.x` over the tracking data
(frameRenderer.ts:581-586); the JS loop seeds with `Infinity`, which for a
non-empty list equals folding from the first element. -/
def trackingMinX (data : List MouseTrackingEvent) : ℚ :=
  match data with
  | [] => 0
  | e :: rest => rest.foldl (fun m ev => jsMin m ev.x) e.x

def trackingMinY (data : List MouseTrackingEvent) : ℚ :=
  match data with
  | [] => 0
  | e :: rest => rest.foldl (fun m ev => jsMin m ev.y) e.y

def trackingMaxX (data : List MouseTrackingEvent) : ℚ :=
  match data with
  | [] => 0
  | e :: rest => rest.foldl (fun m ev => jsMax m ev.x) e.x

def trackingMaxY (data : List MouseTrackingEvent) : ℚ :=
  match data with
  | [] => 0
  | e :: rest => rest.foldl (fun m ev => jsMax m ev.y) e.y

/-- The fallback branch of `normalizeTrackingData`
(frameRenderer.ts:576-599): bounding-box heuristic with the range divisor
floored at 1 (`Math.max(mouseRange, 1)`). -/
def normalizeFallback (mouseTrackingData : List MouseTrackingEvent)
    (firstTimestamp videoWidth videoHeight : ℚ) :
    List MouseTrackingEvent :=
  mouseTrackingData.map (fun event =>
    { event with
      timestamp := event.timestamp - firstTimestamp
      x := (event.x - trackingMinX mouseTrackingData) *
        (videoWidth / jsMax
          (trackingMaxX mouseTrackingData - trackingMinX mouseTrackingData)
          1)
      y := (event.y - trackingMinY mouseTrackingData) *
        (videoHeight / jsMax
          (trackingMaxY mouseTrackingData - trackingMinY mouseTrackingData)
          1) })

/-- `normalizeTrackingData` (frameRenderer.ts:535-600): empty data stays
empty; with usable bounds (`width > 0 && height > 0`) scale logical mouse
coordinates by `video / (bounds / dpr)`; otherwise fall back to the
bounding-box heuristic.  Timestamps are re-based to the first event. -/
def normalizeTrackingData (mouseTrackingData : List MouseTrackingEvent)
    (sourceBounds : Option SourceBounds) (videoWidth videoHeight dpr : ℚ) :
    List MouseTrackingEvent :=
  match mouseTrackingData with
  | [] => []
  | first :: _ =>
    match sourceBounds with
    | some bounds =>
      if 0 < bounds.width ∧ 0 < bounds.height then
        mouseTrackingData.map (fun event =>
          { event with
            timestamp := event.timestamp - first.timestamp
            x := (event.x - bounds.x / dpr) *
              (videoWidth / (bounds.width / dpr))
            y := (event.y - bounds.y / dpr) *
              (videoHeight / (bounds.height / dpr)) })
      else
        normalizeFallback mouseTrackingData first.timestamp videoWidth
          videoHeight
    | none =>
      normalizeFallback mouseTrackingData first.timestamp videoWidth
        videoHeight

/-- C8: with no bounds, or bounds of non-positive width or height, the
fallback normalization is total on every non-empty event list: it keeps
the list length, its range divisors are floored at 1 (never zero), an
event at the bounding box's minimum corner maps to video pixel `(0,0)`,
and when the pointer range is at least 1 an event at the maximum x maps to
`x = videoWidth` (the range fills the output width). -/
theorem c8_fallback_normalization
    (data : List MouseTrackingEvent) (bounds : Option SourceBounds)
    (videoWidth videoHeight dpr : ℚ)
    (hne : data ≠ [])
    (hfb : bounds = none ∨
      ∃ b, bounds = some b ∧ (b.width ≤ 0 ∨ b.height ≤ 0)) :
    (normalizeTrackingData data bounds videoWidth videoHeight dpr).length =
      data.length ∧
    (1 : ℚ) ≤ jsMax (trackingMaxX data - trackingMinX data) 1 ∧
    (1 : ℚ) ≤ jsMax (trackingMaxY data - trackingMinY data) 1 ∧
    (∀ i e, data.get? i = some e →
      e.x = trackingMinX data → e.y = trackingMinY data →
      ∃ e', (normalizeTrackingData data bounds videoWidth videoHeight
          dpr).get? i = some e' ∧ e'.x = 0 ∧ e'.y = 0) ∧
    (∀ i e, data.get? i = some e → e.x = trackingMaxX data →
      1 ≤ trackingMaxX data - trackingMinX data →
      ∃ e', (normalizeTrackingData data bounds videoWidth videoHeight
          dpr).get? i = some e' ∧ e'.x = videoWidth) := by
  obtain ⟨first, rest, rfl⟩ : ∃ f r, data = f :: r := by
    cases data with
    | nil => exact absurd rfl hne
    | cons f r => exact ⟨f, r, rfl⟩
  have hform : normalizeTrackingData (first :: rest) bounds videoWidth
      videoHeight dpr =
      normalizeFallback (first :: rest) first.timestamp videoWidth
        videoHeight := by
    rcases hfb with hb | ⟨b, hb, hwh⟩
    · rw [hb]
      rfl
    · rw [hb]
      simp only [normalizeTrackingData]
      rw [if_neg]
      intro hand
      rcases hwh with h | h
      · linarith [hand.1]
      · linarith [hand.2]
  have hmax1 : ∀ r : ℚ, (1 : ℚ) ≤ jsMax r 1 := by
    intro r
    unfold jsMax
    by_cases h : r < 1
    · rw [if_pos h]
    · rw [if_neg h]
      exact not_lt.mp h
  refine ⟨?_, hmax1 _, hmax1 _, ?_, ?_⟩
  · rw [hform]
    unfold normalizeFallback
    exact List.length_map _ _
  · intro i e hget hex hey
    rw [hform]
    unfold normalizeFallback
    rw [List.get?_map, hget]
    refine ⟨_, rfl, ?_, ?_⟩
    · simp only [hex, sub_self, zero_mul]
    · simp only [hey, sub_self, zero_mul]
  · intro i e hget hex hrange
    have hr0 : trackingMaxX (first :: rest) - trackingMinX (first :: rest)
        ≠ 0 := by
      intro h0
      rw [h0] at hrange
      linarith
    rw [hform]
    unfold normalizeFallback
    rw [List.get?_map, hget]
    refine ⟨_, rfl, ?_⟩
    simp only [hex]
    rw [show jsMax (trackingMaxX (first :: rest) -
        trackingMinX (first :: rest)) 1 =
        trackingMaxX (first :: rest) - trackingMinX (first :: rest) by
      unfold jsMax
      rw [if_neg (not_lt.mpr hrange)]]
    rw [mul_comm, div_mul_cancel₀ _ hr0]

def demoEventA : MouseTrackingEvent := ⟨.move, 10, 3, 4, none, none⟩

def demoEventB : MouseTrackingEvent := ⟨.down, 20, 8, 9, some 0, some 1⟩

unseal Rat.add Rat.mul Rat.inv Rat.sub in
/-- C8 witness: two events with bounding box `(3,4)-(8,9)` and no bounds;
the first (the box's minimum corner) maps to `(0,0)` and the second (at
the maximum x, range `5 ≥ 1`) maps to `x = 1920`. -/
theorem c8_fallback_witness :
    (normalizeTrackingData [demoEventA, demoEventB] none 1920 1080
      2).length = 2 ∧
    (∃ e', (normalizeTrackingData [demoEventA, demoEventB] none 1920 1080
        2).get? 0 = some e' ∧ e'.x = 0 ∧ e'.y = 0) ∧
    (∃ e', (normalizeTrackingData [demoEventA, demoEventB] none 1920 1080
        2).get? 1 = some e' ∧ e'.x = 1920) := by
  have h := c8_fallback_normalization [demoEventA, demoEventB] none
    1920 1080 2 (by decide) (Or.inl rfl)
  exact ⟨h.1, h.2.2.2.1 0 demoEventA rfl (by decide) (by decide),
    h.2.2.2.2 1 demoEventB rfl (by decide) (by decide)⟩

/- ## Export orchestrator (VideoExporter) -/

/-- `MAX_ENCODE_QUEUE` (videoExporter source, field declaration): the
backpressure cap of 60 in-flight frames. -/
def MAX_ENCODE_QUEUE : ℕ := 60

/-- Bookkeeping for the encoder's in-flight queue: `submitted` counts
`encoder.encode` calls (each preceded by `encodeQueue++`), `delivered`
counts output callbacks (each running `encodeQueue--`), so
`encodeQueue = submitted - delivered`. -/
structure EncoderQueueState where
  submitted : ℕ
  delivered : ℕ
deriving DecidableEq, Repr

/-- The two events that change the in-flight count during an export run:

* `submit` — the loop body increments `encodeQueue` and calls
  `encoder.encode`; it is reached only after the wait loop
  `while (encodeQueue >= MAX_ENCODE_QUEUE ...)` has observed
  `encodeQueue < MAX_ENCODE_QUEUE` (no `await` separates the check from
  the increment);
* `deliver` — the encoder's output callback appends the chunk and
  decrements `encodeQueue`, once per previously submitted frame. -/
inductive ExportQueueStep : EncoderQueueState → EncoderQueueState → Prop
  | submit (s : EncoderQueueState)
      (h : s.submitted - s.delivered < MAX_ENCODE_QUEUE) :
      ExportQueueStep s ⟨s.submitted + 1, s.delivered⟩
  | deliver (s : EncoderQueueState) (h : s.delivered < s.submitted) :
      ExportQueueStep s ⟨s.submitted, s.delivered + 1⟩

/-- States reachable from the initial empty queue (`encodeQueue = 0`)
by any interleaving of submissions and callback deliveries. -/
def ExportQueueReachable (s : EncoderQueueState) : Prop :=
  Relation.ReflTransGen ExportQueueStep ⟨0, 0⟩ s

/-- C3: at every reachable point of an export run the number of frames
submitted to the encoder but not yet delivered back by its output callback
never exceeds the cap of 60: a frame is only submitted after the wait
loop has observed an in-flight count below `MAX_ENCODE_QUEUE`. -/
theorem c3_backpressure_invariant (s : EncoderQueueState)
    (hreach : ExportQueueReachable s) :
    s.delivered ≤ s.submitted ∧
      s.submitted - s.delivered ≤ MAX_ENCODE_QUEUE := by
  induction hreach with
  | refl => exact ⟨le_refl 0, by simp [MAX_ENCODE_QUEUE]⟩
  | tail _ hstep ih =>
    obtain ⟨ih1, ih2⟩ := ih
    cases hstep with
    | submit h =>
      dsimp only at *
      unfold MAX_ENCODE_QUEUE at *
      omega
    | deliver h =>
      dsimp only at *
      unfold MAX_ENCODE_QUEUE at *
      omega

/-- C3 witness: the invariant at the initial state. -/
theorem c3_backpressure_witness :
    (0 : ℕ) ≤ 0 ∧ (0 : ℕ) - 0 ≤ MAX_ENCODE_QUEUE :=
  c3_backpressure_invariant ⟨0, 0⟩ Relation.ReflTransGen.refl

/-- Observable milestones of `VideoExporter.export`, in program order. -/
inductive ExportEvent where
  | decoderLoaded
  | rendererReady
  | scheduleComputed (totalFrames : ℕ)
  | encoderConfigured
  | muxerReady
  | frameSubmitted (frameIndex : ℕ)
  | encoderFlushed
  | muxerFinalized
deriving DecidableEq, Repr

/-- Result value of `export()` (`ExportResult`): success with a finalized
blob, or a failure message. -/
structure ExportRunResult where
  success : Bool
  error : Option String
  blobProduced : Bool
deriving DecidableEq, Repr

/-- When `cancel()` is invoked relative to the per-frame loop.  `cancel()`
(videoExporter source, lines 258-261) both sets the cooperative flag and
runs `cleanup()` immediately, so its timing matters:

* `never` — `cancel()` is not called during the run;
* `atCheck c` — the flag is already set when the loop performs its `c`-th
  top-of-iteration check (the cancel landed between iterations, e.g.
  during the backpressure wait, whose own `!this.cancelled` guard and the
  following `if (this.cancelled) break` leave that iteration without
  submitting);
* `duringSeek c` — `cancel()` is delivered while iteration `c` is
  suspended in the per-frame seek `await` (lines 119-129): the check at
  index `c` had already passed, and `cleanup()` nulls `this.renderer`
  before the iteration resumes. -/
inductive CancelTiming where
  | never : CancelTiming
  | atCheck : ℕ → CancelTiming
  | duringSeek : ℕ → CancelTiming
deriving DecidableEq, Repr

/-- Whether the cooperative flag is observed set at the check before
iteration `i`: with `duringSeek c` the flag is set only once iteration
`c` is underway, so checks up to and including `c` still pass. -/
def cancelFlagAtCheck : CancelTiming → ℕ → Bool
  | .never, _ => false
  | .atCheck c, i => decide (c ≤ i)
  | .duringSeek c, i => decide (c < i)

/-- How the per-frame loop ends. -/
inductive LoopOutcome where
  | completed
  | cancelledSeen
  | rendererNullThrow
deriving DecidableEq, Repr

/-- The per-frame `while (frameIndex < totalFrames && !this.cancelled)`
loop: each iteration checks the flag first; a cancel delivered during the
iteration's seek `await` makes the resumed code dereference the nulled
renderer (`this.renderer!.renderFrame`, line 140) and throw before
submitting; otherwise the frame is rendered and submitted and the index
advances. -/
def exportLoop (timing : CancelTiming) :
    ℕ → ℕ → List ExportEvent × LoopOutcome
  | 0, _ => ([], LoopOutcome.completed)
  | remaining + 1, frameIndex =>
    if cancelFlagAtCheck timing frameIndex then
      ([], LoopOutcome.cancelledSeen)
    else if timing = CancelTiming.duringSeek frameIndex then
      ([], LoopOutcome.rendererNullThrow)
    else
      match exportLoop timing remaining (frameIndex + 1) with
      | (evs, outcome) =>
        (ExportEvent.frameSubmitted frameIndex :: evs, outcome)

/-- `VideoExporter.export` as a trace-producing run: load the decoder,
initialize the renderer, compute the schedule, configure the encoder,
initialize the muxer — all unconditionally — then run the frame loop.
If the loop threw on the nulled renderer, the `catch` (line 213) returns
the underlying TypeError message (the V8 message for a property read on
`null`), not `'Export cancelled'`; if the flag is set when the post-loop
`if (this.cancelled)` runs, return `'Export cancelled'`; in both cases
the muxer is never finalized.  Otherwise flush the encoder, add the
chunks and finalize the muxer into the output blob. -/
def exportRun (totalFrames : ℕ) (timing : CancelTiming) :
    ExportRunResult × List ExportEvent :=
  match exportLoop timing totalFrames 0 with
  | (frames, LoopOutcome.rendererNullThrow) =>
    ({ success := false, error := some "Cannot read properties of null",
       blobProduced := false },
      [ExportEvent.decoderLoaded, ExportEvent.rendererReady,
        ExportEvent.scheduleComputed totalFrames,
        ExportEvent.encoderConfigured, ExportEvent.muxerReady] ++ frames)
  | (frames, LoopOutcome.cancelledSeen) =>
    ({ success := false, error := some "Export cancelled",
       blobProduced := false },
      [ExportEvent.decoderLoaded, ExportEvent.rendererReady,
        ExportEvent.scheduleComputed totalFrames,
        ExportEvent.encoderConfigured, ExportEvent.muxerReady] ++ frames)
  | (frames, LoopOutcome.completed) =>
    if cancelFlagAtCheck timing totalFrames then
      ({ success := false, error := some "Export cancelled",
         blobProduced := false },
        [ExportEvent.decoderLoaded, ExportEvent.rendererReady,
          ExportEvent.scheduleComputed totalFrames,
          ExportEvent.encoderConfigured, ExportEvent.muxerReady] ++ frames)
    else
      ({ success := true, error := none, blobProduced := true },
        [ExportEvent.decoderLoaded, ExportEvent.rendererReady,
          ExportEvent.scheduleComputed totalFrames,
          ExportEvent.encoderConfigured, ExportEvent.muxerReady] ++ frames ++
          [ExportEvent.encoderFlushed, ExportEvent.muxerFinalized])

/-- `Math.ceil` for non-negative rationals (ℕ-valued). -/
def mathCeilNat (q : ℚ) : ℕ := q.ceil.toNat

/-- The frame-count computation of `export()` (lines 64-79): without clips
the whole video is exported with `Math.ceil(duration * frameRate)` frames
(a double multiplication); with clips the schedule is
`generateClipFrameTimes`. -/
def exportTotalFrames (durationSeconds : ℚ) (clipRegions : List ClipRegion)
    (frameRate : ℚ) : ℕ :=
  if clipRegions.isEmpty then
    mathCeilNat (roundB64 (durationSeconds * frameRate))
  else (generateClipFrameTimes clipRegions frameRate).length

/-- The exporter's mutable fields relevant to cancellation and teardown. -/
structure ExporterState where
  cancelled : Bool
  encoderOpen : Bool
  decoderOpen : Bool
  rendererOpen : Bool
  muxerAttached : Bool
  encodedChunks : ℕ
  encodeQueue : ℕ
  videoDescriptionSet : Bool
  finalizeCalls : ℕ
deriving DecidableEq, Repr

/-- `cleanup()` (videoExporter source, lines 263-297): close and null the
encoder, decoder and renderer, drop the muxer reference and buffered
chunks, reset the queue and description.  It never calls the muxer's
`finalize`. -/
def cleanup (s : ExporterState) : ExporterState :=
  { s with
    encoderOpen := false
    decoderOpen := false
    rendererOpen := false
    muxerAttached := false
    encodedChunks := 0
    encodeQueue := 0
    videoDescriptionSet := false }

/-- `cancel()` (videoExporter source, lines 258-261): set the cooperative
flag, then `cleanup()` immediately. -/
def cancelOp (s : ExporterState) : ExporterState :=
  cleanup { s with cancelled := true }

/-- With the flag set from check `c` on, the loop submits exactly frames
`i, …, c-1` and reports the cancellation. -/
lemma exportLoop_atCheck (c : ℕ) :
    ∀ (remaining frameIndex : ℕ), frameIndex ≤ c →
      c < frameIndex + remaining →
      exportLoop (CancelTiming.atCheck c) remaining frameIndex =
        ((List.range' frameIndex (c - frameIndex)).map
          ExportEvent.frameSubmitted, LoopOutcome.cancelledSeen) := by
  intro remaining
  induction remaining with
  | zero => intro i h1 h2; omega
  | succ n ih =>
    intro i h1 h2
    by_cases hci : c ≤ i
    · rw [exportLoop, if_pos (by simp [cancelFlagAtCheck, hci])]
      rw [show c - i = 0 by omega]
      simp
    · rw [exportLoop, if_neg (by simp [cancelFlagAtCheck]; omega),
        if_neg (by simp), ih (i + 1) (by omega) (by omega)]
      rw [show c - i = (c - (i + 1)) + 1 by omega, List.range'_succ]
      simp

/-- With the cancel delivered during iteration `c`'s seek await, the loop
submits exactly frames `i, …, c-1` and then throws on the nulled
renderer. -/
lemma exportLoop_duringSeek (c : ℕ) :
    ∀ (remaining frameIndex : ℕ), frameIndex ≤ c →
      c < frameIndex + remaining →
      exportLoop (CancelTiming.duringSeek c) remaining frameIndex =
        ((List.range' frameIndex (c - frameIndex)).map
          ExportEvent.frameSubmitted, LoopOutcome.rendererNullThrow) := by
  intro remaining
  induction remaining with
  | zero => intro i h1 h2; omega
  | succ n ih =>
    intro i h1 h2
    by_cases hci : c = i
    · rw [exportLoop, if_neg (by simp [cancelFlagAtCheck]; omega),
        if_pos (by rw [hci])]
      rw [show c - i = 0 by omega]
      simp
    · rw [exportLoop, if_neg (by simp [cancelFlagAtCheck]; omega),
        if_neg (by simp; omega), ih (i + 1) (by omega) (by omega)]
      rw [show c - i = (c - (i + 1)) + 1 by omega, List.range'_succ]
      simp

/-- C5 counterexample: `cancel()` delivered while iteration 1 of a 5-frame
export awaits its seek makes the resumed iteration dereference the
renderer that `cancel()`'s immediate `cleanup()` nulled; the run returns
the TypeError message, **not** `'Export cancelled'`, refuting the claim's
universal `'Export cancelled'` conclusion for mid-loop cancels.  (The run
is still non-success, submits no further frames, and never finalizes the
muxer.) -/
theorem c5_cancellation_counterexample :
    (exportRun 5 (CancelTiming.duringSeek 1)).1.success = false ∧
    (exportRun 5 (CancelTiming.duringSeek 1)).1.error =
      some "Cannot read properties of null" ∧
    ¬ (exportRun 5 (CancelTiming.duringSeek 1)).1.error =
      some "Export cancelled" ∧
    ExportEvent.frameSubmitted 0 ∈ (exportRun 5 (CancelTiming.duringSeek 1)).2 ∧
    ExportEvent.muxerFinalized ∉ (exportRun 5 (CancelTiming.duringSeek 1)).2 := by
  refine ⟨by decide, by decide, by decide, by decide, by decide⟩

/-- C5 amended: a mid-loop cancel always stops frame submission at once,
returns a non-success result and never finalizes the muxer — but the
reported error depends on where the cancel lands: observed at a
top-of-loop check it yields `'Export cancelled'`; delivered while the
iteration awaits its seek, `cancel()`'s immediate `cleanup()` nulls the
renderer and the resumed iteration throws, surfacing the TypeError
message instead.  Cancelling after completion only sets the cooperative
flag over the already-cleaned state: `cleanup()` is idempotent and never
calls `finalize`. -/
theorem c5_cancellation_amended (totalFrames c : ℕ)
    (hmid : c < totalFrames) :
    ((exportRun totalFrames (CancelTiming.atCheck c)).1.success = false ∧
     (exportRun totalFrames (CancelTiming.atCheck c)).1.error =
       some "Export cancelled" ∧
     (exportRun totalFrames (CancelTiming.atCheck c)).1.blobProduced =
       false ∧
     ExportEvent.muxerFinalized ∉
       (exportRun totalFrames (CancelTiming.atCheck c)).2 ∧
     (∀ i, ExportEvent.frameSubmitted i ∈
        (exportRun totalFrames (CancelTiming.atCheck c)).2 ↔ i < c)) ∧
    ((exportRun totalFrames (CancelTiming.duringSeek c)).1.success =
       false ∧
     (exportRun totalFrames (CancelTiming.duringSeek c)).1.error =
       some "Cannot read properties of null" ∧
     ¬ (exportRun totalFrames (CancelTiming.duringSeek c)).1.error =
       some "Export cancelled" ∧
     (exportRun totalFrames (CancelTiming.duringSeek c)).1.blobProduced =
       false ∧
     ExportEvent.muxerFinalized ∉
       (exportRun totalFrames (CancelTiming.duringSeek c)).2 ∧
     (∀ i, ExportEvent.frameSubmitted i ∈
        (exportRun totalFrames (CancelTiming.duringSeek c)).2 ↔ i < c)) ∧
    (∀ s : ExporterState,
      cancelOp (cleanup s) = { cleanup s with cancelled := true } ∧
      (cancelOp (cleanup s)).finalizeCalls = s.finalizeCalls) := by
  have hA := exportLoop_atCheck c totalFrames 0 (by omega) (by omega)
  have hD := exportLoop_duringSeek c totalFrames 0 (by omega) (by omega)
  rw [Nat.sub_zero] at hA hD
  refine ⟨?_, ?_, fun s => ⟨rfl, rfl⟩⟩
  · unfold exportRun
    rw [hA]
    refine ⟨rfl, rfl, rfl, ?_, ?_⟩
    · simp
    · intro i
      simp only [List.mem_append, List.mem_cons, List.not_mem_nil,
        List.mem_map, List.mem_range'_1, reduceCtorEq,
        ExportEvent.frameSubmitted.injEq, or_false, false_or]
      constructor
      · rintro ⟨a, ⟨_, ha⟩, rfl⟩
        omega
      · intro hi
        exact ⟨i, ⟨by omega, by omega⟩, rfl⟩
  · unfold exportRun
    rw [hD]
    refine ⟨rfl, rfl, ?_, rfl, ?_, ?_⟩
    · intro h
      exact absurd (Option.some.inj h) (by decide)
    · simp
    · intro i
      simp only [List.mem_append, List.mem_cons, List.not_mem_nil,
        List.mem_map, List.mem_range'_1, reduceCtorEq,
        ExportEvent.frameSubmitted.injEq, or_false, false_or]
      constructor
      · rintro ⟨a, ⟨_, ha⟩, rfl⟩
        omega
      · intro hi
        exact ⟨i, ⟨by omega, by omega⟩, rfl⟩

/-- C5 witness: both mid-loop cancel paths at check/iteration 2 of a
5-frame run, and the post-completion no-op. -/
theorem c5_cancellation_witness :
    (exportRun 5 (CancelTiming.atCheck 2)).1.error =
      some "Export cancelled" ∧
    (exportRun 5 (CancelTiming.duringSeek 2)).1.error =
      some "Cannot read properties of null" ∧
    ExportEvent.muxerFinalized ∉ (exportRun 5 (CancelTiming.atCheck 2)).2 ∧
    (ExportEvent.frameSubmitted 1 ∈
      (exportRun 5 (CancelTiming.duringSeek 2)).2 ↔ 1 < 2) ∧
    cancelOp (cleanup ⟨false, true, true, true, true, 3, 2, true, 0⟩) =
      { cleanup ⟨false, true, true, true, true, 3, 2, true, 0⟩ with
        cancelled := true } := by
  have h := c5_cancellation_amended 5 2 (by norm_num)
  exact ⟨h.1.2.1, h.2.1.2.1, h.1.2.2.2.1, h.2.1.2.2.2.2.2 1,
    (h.2.2 ⟨false, true, true, true, true, 3, 2, true, 0⟩).1⟩

unseal Rat.mul in
/-- A zero-duration source yields a zero-frame schedule. -/
lemma exportTotalFrames_zero_of_zero_duration :
    exportTotalFrames 0 [] 30 = 0 := by decide

unseal Rat.mul in
/-- C9 counterexample: a zero-duration source yields an empty frame
schedule (`Math.ceil(0 · 30) = 0` frames), yet the run does **not** fail
fast: the encoder is configured (it appears in the trace before the loop)
and the export completes with `success = true`. -/
theorem c9_failfast_counterexample :
    exportTotalFrames 0 [] 30 = 0 ∧
    ExportEvent.encoderConfigured ∈
      (exportRun (exportTotalFrames 0 [] 30) CancelTiming.never).2 ∧
    (exportRun (exportTotalFrames 0 [] 30) CancelTiming.never).1.success =
      true := by
  refine ⟨by decide, by decide, by decide⟩

/-- C9 amended: `export()` performs no fail-fast validation: the encoder
is configured on every run regardless of the schedule, and a run whose
schedule is empty (zero-duration source, or clips yielding no frames)
submits no frames, flushes, finalizes the muxer and returns success. -/
theorem c9_failfast_amended :
    (∀ (totalFrames : ℕ) (timing : CancelTiming),
      ExportEvent.encoderConfigured ∈
        (exportRun totalFrames timing).2) ∧
    (exportRun (exportTotalFrames 0 [] 30) CancelTiming.never).1 =
      ⟨true, none, true⟩ ∧
    (exportRun 0 CancelTiming.never).2 =
      [ExportEvent.decoderLoaded, ExportEvent.rendererReady,
        ExportEvent.scheduleComputed 0, ExportEvent.encoderConfigured,
        ExportEvent.muxerReady, ExportEvent.encoderFlushed,
        ExportEvent.muxerFinalized] := by
  refine ⟨?_, ?_, ?_⟩
  · intro totalFrames timing
    unfold exportRun
    rcases hloop : exportLoop timing totalFrames 0 with ⟨frames, outcome⟩
    cases outcome with
    | completed =>
      by_cases hflag : cancelFlagAtCheck timing totalFrames
      · simp [hflag]
      · simp [hflag]
    | cancelledSeen => simp
    | rendererNullThrow => simp
  · rw [exportTotalFrames_zero_of_zero_duration]
    rfl
  · rfl
